import Mathlib

/-!
Shallow embedding of the paper-trading valuation / settlement core of the
nomadtrading repository.

Sources embedded here:
* src/server/routes.ts — the trade-execution and position-refresh handlers
  (/api/trades/buy, /api/trades/sell, /api/options/trade, /api/positions,
  /api/portfolio);
* the in-memory storage backend (MemStorage): updatePosition, deletePosition,
  getPortfolio, recordPortfolioValue, updateCash, addTrade, addOptionTrade,
  addOptionPosition;
* the relational storage backend (DatabaseStorage): getPositions and
  updatePosition, which persist only quantity and averagePrice and recompute
  currentPrice as averagePrice on every read.

Modelling conventions: JavaScript numbers used for money are modelled as
rationals; share/contract counts (validated as positive integers by
insertBuySellSchema / insertOptionTradeSchema) are naturals; timestamps
(Date.now()) are integers.  Randomly generated record ids (randomUUID) carry
no behavioural content and are omitted from the records.  The JS Map keyed
by symbol is modelled as a list of positions with Map semantics: get finds
the entry, set replaces the existing entry in place or appends, delete
removes the entry.
-/

namespace NomadTrading

/-- Trade direction, shared/schema.ts TradeType. -/
inductive TradeType where
  | buy
  | sell
  deriving DecidableEq, Repr

/-- Option kind, shared/schema.ts OptionType. -/
inductive OptionKind where
  | call
  | put
  deriving DecidableEq, Repr

/-- Stock position with computed display fields, shared/schema.ts Position
(the randomUUID id is omitted). -/
structure Position where
  symbol : String
  quantity : ℕ
  averagePrice : ℚ
  currentPrice : ℚ
  totalValue : ℚ
  profitLoss : ℚ
  profitLossPercent : ℚ
  deriving DecidableEq, Repr

/-- Option position lot, shared/schema.ts OptionPosition (id omitted). -/
structure OptionPosition where
  symbol : String
  optionType : OptionKind
  strikePrice : ℚ
  expirationDate : String
  contracts : ℕ
  premium : ℚ
  currentPremium : ℚ
  profitLoss : ℚ
  deriving DecidableEq, Repr

/-- Stock trade record, shared/schema.ts Trade (id omitted). -/
structure Trade where
  symbol : String
  type : TradeType
  quantity : ℕ
  price : ℚ
  total : ℚ
  timestamp : ℤ
  deriving DecidableEq, Repr

/-- Option trade record, shared/schema.ts OptionTrade (id omitted). -/
structure OptionTrade where
  symbol : String
  optionType : OptionKind
  strikePrice : ℚ
  expirationDate : String
  contracts : ℕ
  premium : ℚ
  total : ℚ
  action : TradeType
  timestamp : ℤ
  deriving DecidableEq, Repr

/-- Portfolio chart point, shared/schema.ts PortfolioHistoryPoint. -/
structure HistoryPoint where
  timestamp : ℤ
  value : ℚ
  deriving DecidableEq, Repr

/-- Portfolio summary, shared/schema.ts Portfolio. -/
structure Portfolio where
  cash : ℚ
  totalValue : ℚ
  stocksValue : ℚ
  optionsValue : ℚ
  dayChange : ℚ
  dayChangePercent : ℚ
  totalProfitLoss : ℚ
  totalProfitLossPercent : ℚ
  deriving DecidableEq, Repr

/-- The whole MemStorage state: cash, the positions Map, the option
positions Map (insertion order list: each option buy appends a fresh lot),
the append-only trade ledgers, the portfolio history and the timestamp of
the last appended history point. -/
structure MemState where
  cash : ℚ
  positions : List Position
  optionPositions : List OptionPosition
  trades : List Trade
  optionTrades : List OptionTrade
  portfolioHistory : List HistoryPoint
  lastHistoryRecord : ℤ
  deriving DecidableEq, Repr

/-- Trade admission failures surfaced as 400 responses by the handlers. -/
inductive TradeError where
  | insufficientFunds
  | insufficientShares
  deriving DecidableEq, Repr

/-- MemStorage.getPosition: Map.get keyed by symbol. -/
def getPosition : List Position → String → Option Position
  | [], _ => none
  | q :: rest, s => if q.symbol = s then some q else getPosition rest s

/-- Map.set keyed by symbol: replace the existing entry in place, or append. -/
def setPosition : List Position → Position → List Position
  | [], p => [p]
  | q :: rest, p => if q.symbol = p.symbol then p :: rest else q :: setPosition rest p

/-- MemStorage.deletePosition: Map.delete keyed by symbol. -/
def deletePosition : List Position → String → List Position
  | [], _ => []
  | q :: rest, s => if q.symbol = s then rest else q :: deletePosition rest s

/-- The position record MemStorage.updatePosition builds from its four
arguments: totalValue, profitLoss and profitLossPercent are recomputed from
the supplied current price, the percent guarded to 0 when cost basis is not
positive. -/
def mkPosition (symbol : String) (quantity : ℕ) (avgPrice currentPrice : ℚ) : Position :=
  let totalValue := (quantity : ℚ) * currentPrice
  let costBasis := (quantity : ℚ) * avgPrice
  let profitLoss := totalValue - costBasis
  let profitLossPercent := if costBasis > 0 then profitLoss / costBasis * 100 else 0
  ⟨symbol, quantity, avgPrice, currentPrice, totalValue, profitLoss, profitLossPercent⟩

/-- MemStorage.updatePosition: store the rebuilt position under its symbol
and return it. -/
def updatePosition (s : MemState) (symbol : String) (quantity : ℕ)
    (avgPrice currentPrice : ℚ) : MemState × Position :=
  let p := mkPosition symbol quantity avgPrice currentPrice
  ({ s with positions := setPosition s.positions p }, p)

/-- The /api/trades/buy handler of src/server/routes.ts, after schema
validation.  Checks funds, debits cash, upserts the position (weighted
average cost on an existing position), appends the trade.  On rejection the
handler returns 400 before any mutation, so the state is returned unchanged
together with the error. -/
def executeBuy (s : MemState) (symbol : String) (quantity : ℕ) (price : ℚ)
    (ts : ℤ) : MemState × Option TradeError :=
  let total := (quantity : ℚ) * price
  if total > s.cash then
    (s, some .insufficientFunds)
  else
    let s1 := { s with cash := s.cash + (-total) }
    let qa : ℕ × ℚ :=
      match getPosition s.positions symbol with
      | some existing =>
          let totalShares := existing.quantity + quantity
          let totalCost := (existing.quantity : ℚ) * existing.averagePrice
            + (quantity : ℚ) * price
          (totalShares, totalCost / (totalShares : ℚ))
      | none => (quantity, price)
    let s2 := (updatePosition s1 symbol qa.1 qa.2 price).1
    ({ s2 with trades := s2.trades ++ [⟨symbol, .buy, quantity, price, total, ts⟩] }, none)

/-- The /api/trades/sell handler of src/server/routes.ts, after schema
validation.  Rejects when no position exists or fewer shares are held than
requested; otherwise credits cash, decrements the position (deleting it at
zero, keeping averagePrice on a partial sell) and appends the trade. -/
def executeSell (s : MemState) (symbol : String) (quantity : ℕ) (price : ℚ)
    (ts : ℤ) : MemState × Option TradeError :=
  match getPosition s.positions symbol with
  | none => (s, some .insufficientShares)
  | some existing =>
    if existing.quantity < quantity then
      (s, some .insufficientShares)
    else
      let total := (quantity : ℚ) * price
      let s1 := { s with cash := s.cash + total }
      let newQuantity := existing.quantity - quantity
      let s2 :=
        if newQuantity = 0 then
          { s1 with positions := deletePosition s1.positions symbol }
        else
          (updatePosition s1 symbol newQuantity existing.averagePrice price).1
      ({ s2 with trades := s2.trades ++ [⟨symbol, .sell, quantity, price, total, ts⟩] }, none)

/-- The /api/options/trade handler of src/server/routes.ts, after schema
validation.  A buy checks funds, debits cash and appends a fresh option lot
(currentPremium set to the entry premium); a sell credits cash
unconditionally and touches no lot.  Both append an option trade record. -/
def executeOptionTrade (s : MemState) (symbol : String) (optionType : OptionKind)
    (strikePrice : ℚ) (expirationDate : String) (contracts : ℕ) (premium : ℚ)
    (action : TradeType) (ts : ℤ) : MemState × Option TradeError :=
  let total := (contracts : ℚ) * premium * 100
  let record : OptionTrade :=
    ⟨symbol, optionType, strikePrice, expirationDate, contracts, premium, total, action, ts⟩
  match action with
  | .buy =>
    if total > s.cash then
      (s, some .insufficientFunds)
    else
      let s1 := { s with cash := s.cash + (-total) }
      let lot : OptionPosition :=
        ⟨symbol, optionType, strikePrice, expirationDate, contracts, premium, premium,
          (premium - premium) * (contracts : ℚ) * 100⟩
      let s2 := { s1 with optionPositions := s1.optionPositions ++ [lot] }
      ({ s2 with optionTrades := s2.optionTrades ++ [record] }, none)
  | .sell =>
    let s1 := { s with cash := s.cash + total }
    ({ s1 with optionTrades := s1.optionTrades ++ [record] }, none)

/-- Starting cash constant shared by both backends. -/
def STARTING_CASH : ℚ := 100000

/-- MemStorage.getPortfolio: aggregate the stored positions and option lots
with cash into the portfolio summary. -/
def getPortfolio (s : MemState) : Portfolio :=
  let stocksValue := (s.positions.map (fun p => p.totalValue)).sum
  let optionsValue :=
    (s.optionPositions.map (fun o => o.currentPremium * (o.contracts : ℚ) * 100)).sum
  let totalValue := s.cash + stocksValue + optionsValue
  let totalProfitLoss := totalValue - STARTING_CASH
  let totalProfitLossPercent := totalProfitLoss / STARTING_CASH * 100
  let dayChange := (s.positions.map (fun p => p.profitLoss)).sum
  let dayChangePercent := if stocksValue > 0 then dayChange / stocksValue * 100 else 0
  ⟨s.cash, totalValue, stocksValue, optionsValue, dayChange, dayChangePercent,
    totalProfitLoss, totalProfitLossPercent⟩

/-- Last n elements of a list (JS slice with a negative index). -/
def takeLast {α : Type} (n : ℕ) (l : List α) : List α := l.drop (l.length - n)

/-- MemStorage.recordPortfolioValue: overwrite the most recent point when
less than 60000 ms have passed since lastHistoryRecord and the history is
nonempty, else append and move lastHistoryRecord to now; then keep only the
last 100 points. -/
def recordPortfolioValue (s : MemState) (now : ℤ) (value : ℚ) : MemState :=
  let upd :=
    if now - s.lastHistoryRecord < 60000 ∧ 0 < s.portfolioHistory.length then
      { s with portfolioHistory := s.portfolioHistory.dropLast ++ [⟨now, value⟩] }
    else
      { s with portfolioHistory := s.portfolioHistory ++ [⟨now, value⟩],
               lastHistoryRecord := now }
  if 100 < upd.portfolioHistory.length then
    { upd with portfolioHistory := takeLast 100 upd.portfolioHistory }
  else
    upd

/-- The MemStorage constructor: empty maps and ledgers, STARTING_CASH, and
one initial portfolio-value record taken at construction time t0. -/
def initState (t0 : ℤ) : MemState :=
  recordPortfolioValue ⟨STARTING_CASH, [], [], [], [], [], 0⟩ t0 STARTING_CASH

/-- Refreshed position for one symbol: with a quote, updatePosition rebuilds
the position at the quoted price; with no quote the stored position is kept
as is. -/
def refreshQuote (quotes : String → Option ℚ) (p : Position) : Position :=
  match quotes p.symbol with
  | some price => mkPosition p.symbol p.quantity p.averagePrice price
  | none => p

/-- Loop body of the /api/positions handler: with a quote, persist the
refreshed record and collect it; with no quote, pass the stored position
through untouched. -/
def refreshStep (quotes : String → Option ℚ) (acc : MemState × List Position)
    (p : Position) : MemState × List Position :=
  match quotes p.symbol with
  | some price =>
      let r := updatePosition acc.1 p.symbol p.quantity p.averagePrice price
      (r.1, acc.2 ++ [r.2])
  | none => (acc.1, acc.2 ++ [p])

/-- The /api/positions handler of src/server/routes.ts: walk the stored
positions, persist a refreshed record for every symbol whose quote lookup
succeeded, and collect the returned list (stale positions pass through). -/
def refreshPositions (s : MemState) (quotes : String → Option ℚ) :
    MemState × List Position :=
  s.positions.foldl (refreshStep quotes) (s, [])

/-- One inbound trade-execution request, for reasoning about request
sequences against the store. -/
inductive Op where
  | buy (symbol : String) (quantity : ℕ) (price : ℚ) (ts : ℤ)
  | sell (symbol : String) (quantity : ℕ) (price : ℚ) (ts : ℤ)
  | optionTrade (symbol : String) (optionType : OptionKind) (strikePrice : ℚ)
      (expirationDate : String) (contracts : ℕ) (premium : ℚ)
      (action : TradeType) (ts : ℤ)
  deriving Repr

/-- The store state after one request: on rejection the handler responded
400 without mutating anything, so the state passes through unchanged. -/
def applyOp (s : MemState) : Op → MemState
  | .buy symbol quantity price ts => (executeBuy s symbol quantity price ts).1
  | .sell symbol quantity price ts => (executeSell s symbol quantity price ts).1
  | .optionTrade symbol optionType strikePrice expirationDate contracts premium action ts =>
      (executeOptionTrade s symbol optionType strikePrice expirationDate contracts
        premium action ts).1

/-- State after a sequence of requests executed in order. -/
def runOps (s : MemState) (ops : List Op) : MemState := ops.foldl applyOp s

/-- Input validity enforced by insertBuySellSchema / insertOptionTradeSchema:
positive integer quantity or contract count, positive price or premium. -/
def Op.valid : Op → Prop
  | .buy _ quantity price _ => 0 < quantity ∧ 0 < price
  | .sell _ quantity price _ => 0 < quantity ∧ 0 < price
  | .optionTrade _ _ _ _ contracts premium _ _ => 0 < contracts ∧ 0 < premium

/-- A sequence of same-symbol buys (quantity, price), executed in order. -/
def runBuys (s : MemState) (symbol : String) (buys : List (ℕ × ℚ)) : MemState :=
  buys.foldl (fun st b => (executeBuy st symbol b.1 b.2 0).1) s

/-! Relational backend (DatabaseStorage).  The positions table stores only
userId, symbol, quantity and averagePrice; currentPrice is never persisted.
The rows of a single user are modelled as a list. -/

/-- One row of the positions table visible to one user. -/
structure DbPositionRow where
  symbol : String
  quantity : ℕ
  averagePrice : ℚ
  deriving DecidableEq, Repr

/-- DatabaseStorage.getPositions: every read rebuilds the display record
with currentPrice set to the stored averagePrice. -/
def dbGetPositions (rows : List DbPositionRow) : List Position :=
  rows.map (fun p => mkPosition p.symbol p.quantity p.averagePrice p.averagePrice)

/-- DatabaseStorage.updatePosition: persists quantity and averagePrice on
the matching row (inserting when absent) and returns a display record
computed from the supplied current price, which is not stored. -/
def dbUpdatePosition (rows : List DbPositionRow) (symbol : String) (quantity : ℕ)
    (avgPrice currentPrice : ℚ) : List DbPositionRow × Position :=
  let rows' :=
    if rows.any (fun r => r.symbol = symbol) then
      rows.map (fun r => if r.symbol = symbol then ⟨symbol, quantity, avgPrice⟩ else r)
    else
      rows ++ [⟨symbol, quantity, avgPrice⟩]
  (rows', mkPosition symbol quantity avgPrice currentPrice)

/-- DatabaseStorage.recordPortfolioValue: insert a new history row
unconditionally — there is no coalescing path — then, when more than 100
rows remain, delete every row beyond the 100 most recent by timestamp.  One
user's rows are modelled in ascending timestamp order (their insertion
order, since the table stamps each insert with the current time), so the
100 most recent rows are the last 100 of the list. -/
def dbRecordPortfolioValue (rows : List HistoryPoint) (now : ℤ) (value : ℚ) :
    List HistoryPoint :=
  let rows' := rows ++ [⟨now, value⟩]
  if 100 < rows'.length then takeLast 100 rows' else rows'

/-! Basic lemmas about the symbol-keyed map operations. -/

/-- Looking up the symbol just stored returns the stored position. -/
theorem getPosition_setPosition_self (l : List Position) (p : Position) :
    getPosition (setPosition l p) p.symbol = some p := by
  induction l with
  | nil => simp [setPosition, getPosition]
  | cons q rest ih =>
      by_cases h : q.symbol = p.symbol
      · simp [setPosition, getPosition, h]
      · simp [setPosition, getPosition, h, ih]

/-- A symbol absent from the list looks up to none. -/
theorem getPosition_eq_none_of_not_mem (l : List Position) (s : String)
    (h : s ∉ l.map Position.symbol) : getPosition l s = none := by
  induction l with
  | nil => rfl
  | cons q rest ih =>
      simp only [List.map_cons, List.mem_cons, not_or] at h
      have hq : q.symbol ≠ s := fun hh => h.1 hh.symm
      rw [getPosition, if_neg hq]
      exact ih h.2

/-- With unique symbols, deleting a symbol leaves nothing to look up. -/
theorem getPosition_deletePosition_self (l : List Position) (s : String)
    (hnd : (l.map Position.symbol).Nodup) :
    getPosition (deletePosition l s) s = none := by
  induction l with
  | nil => rfl
  | cons q rest ih =>
      simp only [List.map_cons, List.nodup_cons] at hnd
      by_cases h : q.symbol = s
      · subst h
        simpa [deletePosition] using
          getPosition_eq_none_of_not_mem rest q.symbol hnd.1
      · simpa [deletePosition, getPosition, h] using ih hnd.2

/-- Fresh account used by the concrete witnesses: starting cash, no
positions, empty ledgers. -/
def sampleState : MemState := ⟨100000, [], [], [], [], [], 0⟩

/-- Outcome asserted by C1 for a successful buy: admission succeeds, cash is
debited by quantity times price, a missing position is created at the trade
price, an existing position is merged to the weighted-average cost basis,
and exactly one buy trade with total quantity times price is appended. -/
def BuyOutcome (s : MemState) (symbol : String) (quantity : ℕ) (price : ℚ)
    (ts : ℤ) : Prop :=
  (executeBuy s symbol quantity price ts).2 = none ∧
  (executeBuy s symbol quantity price ts).1.cash = s.cash - (quantity : ℚ) * price ∧
  (getPosition s.positions symbol = none →
    ∃ p, getPosition (executeBuy s symbol quantity price ts).1.positions symbol = some p ∧
      p.quantity = quantity ∧ p.averagePrice = price) ∧
  (∀ old, getPosition s.positions symbol = some old →
    ∃ p, getPosition (executeBuy s symbol quantity price ts).1.positions symbol = some p ∧
      p.quantity = old.quantity + quantity ∧
      p.averagePrice =
        ((old.quantity : ℚ) * old.averagePrice + (quantity : ℚ) * price)
          / ((old.quantity : ℚ) + (quantity : ℚ))) ∧
  (executeBuy s symbol quantity price ts).1.trades =
    s.trades ++ [⟨symbol, .buy, quantity, price, (quantity : ℚ) * price, ts⟩]

/-- C1: every successful executeBuy (positive integer quantity, positive
price, total within cash) debits cash by exactly quantity times price,
creates a fresh position at averagePrice = price or merges into the
weighted-average cost basis of an existing one, and appends exactly one buy
trade with total = quantity times price. -/
theorem executeBuy_spec (s : MemState) (symbol : String) (quantity : ℕ)
    (price : ℚ) (ts : ℤ) (hq : 0 < quantity) (hp : 0 < price)
    (hcash : (quantity : ℚ) * price ≤ s.cash) :
    BuyOutcome s symbol quantity price ts := by
  have hng : ¬ ((quantity : ℚ) * price > s.cash) := not_lt.mpr hcash
  refine ⟨?_, ?_, ?_, ?_, ?_⟩
  · simp [executeBuy, hng]
  · cases hlook : getPosition s.positions symbol with
    | none => simp [executeBuy, hng, hlook, updatePosition, sub_eq_add_neg]
    | some old => simp [executeBuy, hng, hlook, updatePosition, sub_eq_add_neg]
  · intro hlook
    refine ⟨mkPosition symbol quantity price price, ?_, rfl, rfl⟩
    simp only [executeBuy, hng, hlook, updatePosition]
    simpa using getPosition_setPosition_self s.positions (mkPosition symbol quantity price price)
  · intro old hlook
    refine ⟨mkPosition symbol (old.quantity + quantity)
      (((old.quantity : ℚ) * old.averagePrice + (quantity : ℚ) * price)
        / ((old.quantity + quantity : ℕ) : ℚ)) price, ?_, rfl, ?_⟩
    · simp only [executeBuy, hng, hlook, updatePosition]
      simpa using getPosition_setPosition_self s.positions
        (mkPosition symbol (old.quantity + quantity)
          (((old.quantity : ℚ) * old.averagePrice + (quantity : ℚ) * price)
            / ((old.quantity + quantity : ℕ) : ℚ)) price)
    · show ((old.quantity : ℚ) * old.averagePrice + (quantity : ℚ) * price)
          / ((old.quantity + quantity : ℕ) : ℚ) = _
      push_cast
      ring
  · cases hlook : getPosition s.positions symbol with
    | none => simp [executeBuy, hng, hlook, updatePosition]
    | some old => simp [executeBuy, hng, hlook, updatePosition]

/-- C1 witness: buying 10 AAPL at 150 from a fresh account. -/
theorem executeBuy_spec_witness : BuyOutcome sampleState "AAPL" 10 150 0 :=
  executeBuy_spec sampleState "AAPL" 10 150 0 (by norm_num) (by norm_num)
    (by norm_num [sampleState])

/-- Outcome asserted by C2 for a successful sell against a held position:
admission succeeds, cash is credited by quantity times price, selling the
full quantity leaves no row for the symbol, a partial sell keeps the
averagePrice and decrements the quantity, and exactly one sell trade is
appended. -/
def SellOutcome (s : MemState) (symbol : String) (quantity : ℕ) (price : ℚ)
    (ts : ℤ) (old : Position) : Prop :=
  (executeSell s symbol quantity price ts).2 = none ∧
  (executeSell s symbol quantity price ts).1.cash = s.cash + (quantity : ℚ) * price ∧
  (old.quantity = quantity →
    getPosition (executeSell s symbol quantity price ts).1.positions symbol = none) ∧
  (quantity < old.quantity →
    ∃ p, getPosition (executeSell s symbol quantity price ts).1.positions symbol = some p ∧
      p.quantity = old.quantity - quantity ∧ p.averagePrice = old.averagePrice) ∧
  (executeSell s symbol quantity price ts).1.trades =
    s.trades ++ [⟨symbol, .sell, quantity, price, (quantity : ℚ) * price, ts⟩]

/-- C2: every successful executeSell against a position holding at least the
requested quantity credits cash by exactly quantity times price, decrements
the position (deleting the row entirely on a full sell, keeping averagePrice
unchanged on a partial sell), and appends exactly one sell trade. -/
theorem executeSell_spec (s : MemState) (symbol : String) (quantity : ℕ)
    (price : ℚ) (ts : ℤ) (old : Position)
    (hnd : (s.positions.map Position.symbol).Nodup)
    (hold : getPosition s.positions symbol = some old)
    (hq : quantity ≤ old.quantity) :
    SellOutcome s symbol quantity price ts old := by
  have hng : ¬ (old.quantity < quantity) := not_lt.mpr hq
  refine ⟨?_, ?_, ?_, ?_, ?_⟩
  · simp [executeSell, hold, hng]
  · by_cases hz : old.quantity - quantity = 0 <;>
      simp [executeSell, hold, hng, hz, updatePosition]
  · intro heq
    have hz : old.quantity - quantity = 0 := by omega
    simp only [executeSell, hold, hng, if_neg hng, hz, if_pos rfl]
    simpa using getPosition_deletePosition_self s.positions symbol hnd
  · intro hlt
    have hz : ¬ (old.quantity - quantity = 0) := by omega
    refine ⟨mkPosition symbol (old.quantity - quantity) old.averagePrice price, ?_, rfl, rfl⟩
    simp only [executeSell, hold, hng, hz, updatePosition]
    simpa [hz] using getPosition_setPosition_self s.positions
      (mkPosition symbol (old.quantity - quantity) old.averagePrice price)
  · by_cases hz : old.quantity - quantity = 0 <;>
      simp [executeSell, hold, hng, hz, updatePosition]

/-- C2 witness: a fresh account buys 10 AAPL at 150 and then sells 4 of them
at 160. -/
theorem executeSell_spec_witness :
    SellOutcome (executeBuy sampleState "AAPL" 10 150 0).1 "AAPL" 4 160 1
      (mkPosition "AAPL" 10 150 150) := by
  refine executeSell_spec _ "AAPL" 4 160 1 (mkPosition "AAPL" 10 150 150) ?_ ?_ ?_
  · show ((executeBuy sampleState "AAPL" 10 150 0).1.positions.map Position.symbol).Nodup
    norm_num [executeBuy, sampleState, updatePosition, setPosition, getPosition, mkPosition]
  · norm_num [executeBuy, sampleState, updatePosition, setPosition, getPosition, mkPosition]
  · norm_num [mkPosition]

/-- C3: executeBuy is rejected with InsufficientFunds exactly when the total
exceeds cash, executeSell is rejected with InsufficientShares exactly when
no position for the symbol holds at least the requested quantity, and every
rejected request leaves the whole store state (cash, positions, both
ledgers) unchanged. -/
theorem trade_rejection_noop (s : MemState) (symbol : String) (quantity : ℕ)
    (price : ℚ) (ts : ℤ) :
    ((executeBuy s symbol quantity price ts).2 = some .insufficientFunds ↔
        (quantity : ℚ) * price > s.cash) ∧
    ((quantity : ℚ) * price > s.cash → (executeBuy s symbol quantity price ts).1 = s) ∧
    ((executeSell s symbol quantity price ts).2 = some .insufficientShares ↔
        ∀ p, getPosition s.positions symbol = some p → p.quantity < quantity) ∧
    ((∀ p, getPosition s.positions symbol = some p → p.quantity < quantity) →
        (executeSell s symbol quantity price ts).1 = s) := by
  refine ⟨?_, ?_, ?_, ?_⟩
  · by_cases hg : (quantity : ℚ) * price > s.cash
    · simp [executeBuy, hg]
    · cases hlook : getPosition s.positions symbol <;>
        simp [executeBuy, hg, hlook]
  · intro hg
    simp [executeBuy, hg]
  · cases hlook : getPosition s.positions symbol with
    | none => simp [executeSell, hlook]
    | some old =>
        by_cases hg : old.quantity < quantity
        · simp [executeSell, hlook, hg]
        · simp [executeSell, hlook, hg]
  · intro hall
    cases hlook : getPosition s.positions symbol with
    | none => simp [executeSell, hlook]
    | some old => simp [executeSell, hlook, hall old hlook]

/-- C3 witness: with 100000 cash, a buy of 1 share at 150000 is rejected and
the state is returned untouched. -/
theorem trade_rejection_noop_witness :
    (executeBuy sampleState "X" 1 150000 0).1 = sampleState :=
  (trade_rejection_noop sampleState "X" 1 150000 0).2.1 (by norm_num [sampleState])

/-- C4: the portfolio summary satisfies the exact aggregate equations:
stocksValue sums the positions' totalValue, optionsValue sums currentPremium
times contracts times 100 over the option lots, totalValue is cash plus
stocksValue plus optionsValue, totalProfitLoss is totalValue minus the
100000 starting cash, and totalProfitLossPercent is totalProfitLoss over
starting cash times 100. -/
theorem getPortfolio_spec (s : MemState) :
    (getPortfolio s).cash = s.cash ∧
    (getPortfolio s).stocksValue = (s.positions.map (fun p => p.totalValue)).sum ∧
    (getPortfolio s).optionsValue =
      (s.optionPositions.map (fun o => o.currentPremium * (o.contracts : ℚ) * 100)).sum ∧
    (getPortfolio s).totalValue =
      (getPortfolio s).cash + (getPortfolio s).stocksValue + (getPortfolio s).optionsValue ∧
    (getPortfolio s).totalProfitLoss = (getPortfolio s).totalValue - 100000 ∧
    (getPortfolio s).totalProfitLossPercent =
      (getPortfolio s).totalProfitLoss / 100000 * 100 :=
  ⟨rfl, rfl, rfl, rfl, rfl, rfl⟩

/-- Cash never goes negative across one admitted or rejected request with
schema-valid inputs. -/
theorem applyOp_cash_nonneg (s : MemState) (op : Op) (hv : op.valid)
    (h : 0 ≤ s.cash) : 0 ≤ (applyOp s op).cash := by
  cases op with
  | buy symbol quantity price ts =>
      by_cases hg : (quantity : ℚ) * price > s.cash
      · simpa [applyOp, executeBuy, hg] using h
      · cases hlook : getPosition s.positions symbol <;>
          · simp [applyOp, executeBuy, hg, hlook, updatePosition]
            linarith [not_lt.mp hg]
  | sell symbol quantity price ts =>
      have hpr : (0 : ℚ) ≤ (quantity : ℚ) * price :=
        mul_nonneg (Nat.cast_nonneg quantity) (le_of_lt hv.2)
      cases hlook : getPosition s.positions symbol with
      | none => simpa [applyOp, executeSell, hlook] using h
      | some old =>
          by_cases hg : old.quantity < quantity
          · simpa [applyOp, executeSell, hlook, hg] using h
          · by_cases hz : old.quantity - quantity = 0 <;>
              · simp [applyOp, executeSell, hlook, hg, hz, updatePosition]
                linarith
  | optionTrade symbol optionType strikePrice expirationDate contracts premium action ts =>
      have hpr : (0 : ℚ) ≤ (contracts : ℚ) * premium * 100 :=
        mul_nonneg (mul_nonneg (Nat.cast_nonneg contracts) (le_of_lt hv.2)) (by norm_num)
      cases action with
      | buy =>
          by_cases hg : (contracts : ℚ) * premium * 100 > s.cash
          · simpa [applyOp, executeOptionTrade, hg] using h
          · simp [applyOp, executeOptionTrade, hg]
            linarith [not_lt.mp hg]
      | sell =>
          simp [applyOp, executeOptionTrade]
          linarith

/-- Cash stays nonnegative along any request sequence from any state with
nonnegative cash. -/
theorem runOps_cash_nonneg_aux (ops : List Op) :
    ∀ s : MemState, 0 ≤ s.cash → (∀ op ∈ ops, op.valid) →
      0 ≤ (runOps s ops).cash := by
  induction ops with
  | nil => intro s h _; exact h
  | cons op rest ih =>
      intro s h hv
      exact ih (applyOp s op) (applyOp_cash_nonneg s op (hv op (by simp)) h)
        (fun o ho => hv o (by simp [ho]))

/-- Recording a portfolio value touches only the history fields. -/
theorem recordPortfolioValue_cash (s : MemState) (now : ℤ) (value : ℚ) :
    (recordPortfolioValue s now value).cash = s.cash := by
  simp only [recordPortfolioValue]
  split <;> split <;> rfl

/-- C5: starting from the constructor state (100000 cash, no positions),
after every sequence of buy, sell and option-trade requests with positive
quantities, contract counts, prices and premiums, cash is nonnegative:
debits are admitted only within cash and sells only credit. -/
theorem runOps_cash_nonneg (t0 : ℤ) (ops : List Op)
    (hv : ∀ op ∈ ops, op.valid) : 0 ≤ (runOps (initState t0) ops).cash :=
  runOps_cash_nonneg_aux ops (initState t0)
    (by rw [initState, recordPortfolioValue_cash]; norm_num [STARTING_CASH]) hv

/-- C5 witness: a concrete buy, partial sell and option sale from the
constructor state. -/
theorem runOps_cash_nonneg_witness :
    0 ≤ (runOps (initState 0)
      [Op.buy "AAPL" 10 150 0, Op.sell "AAPL" 4 160 1,
       Op.optionTrade "TSLA" .call 200 "2026-01-16" 2 5 .sell 2]).cash :=
  runOps_cash_nonneg 0 _ (by
    intro op hop
    simp only [List.mem_cons, List.not_mem_nil, or_false] at hop
    rcases hop with rfl | rfl | rfl
    · exact ⟨by norm_num, by norm_num⟩
    · exact ⟨by norm_num, by norm_num⟩
    · exact ⟨by norm_num, by norm_num⟩)

/-- C8: an option sell credits cash by contracts times premium times 100
unconditionally: it never fails, consults or modifies no option lot (and no
stock position or stock ledger), and appends exactly one option trade with
action sell. -/
theorem optionSell_unconditional (s : MemState) (symbol : String)
    (optionType : OptionKind) (strikePrice : ℚ) (expirationDate : String)
    (contracts : ℕ) (premium : ℚ) (ts : ℤ) :
    (executeOptionTrade s symbol optionType strikePrice expirationDate contracts
        premium .sell ts).2 = none ∧
    (executeOptionTrade s symbol optionType strikePrice expirationDate contracts
        premium .sell ts).1.cash = s.cash + (contracts : ℚ) * premium * 100 ∧
    (executeOptionTrade s symbol optionType strikePrice expirationDate contracts
        premium .sell ts).1.optionPositions = s.optionPositions ∧
    (executeOptionTrade s symbol optionType strikePrice expirationDate contracts
        premium .sell ts).1.positions = s.positions ∧
    (executeOptionTrade s symbol optionType strikePrice expirationDate contracts
        premium .sell ts).1.trades = s.trades ∧
    (executeOptionTrade s symbol optionType strikePrice expirationDate contracts
        premium .sell ts).1.optionTrades = s.optionTrades ++
      [⟨symbol, optionType, strikePrice, expirationDate, contracts, premium,
        (contracts : ℚ) * premium * 100, .sell, ts⟩] :=
  ⟨rfl, rfl, rfl, rfl, rfl, rfl⟩

/-- Outcome asserted by C10: the stored position after a successful buy, and
after a successful partial sell, carries the caller-supplied execution price
as currentPrice, with totalValue, profitLoss and profitLossPercent all
recomputed from that price. -/
def TradePriceOutcome (s : MemState) (symbol : String) (quantity : ℕ)
    (price : ℚ) (ts : ℤ) : Prop :=
  ((quantity : ℚ) * price ≤ s.cash →
    ∃ p, getPosition (executeBuy s symbol quantity price ts).1.positions symbol = some p ∧
      p.currentPrice = price ∧
      p.totalValue = (p.quantity : ℚ) * price ∧
      p.profitLoss = p.totalValue - (p.quantity : ℚ) * p.averagePrice ∧
      p.profitLossPercent =
        (if (p.quantity : ℚ) * p.averagePrice > 0 then
          p.profitLoss / ((p.quantity : ℚ) * p.averagePrice) * 100 else 0)) ∧
  (∀ old, getPosition s.positions symbol = some old → quantity < old.quantity →
    ∃ p, getPosition (executeSell s symbol quantity price ts).1.positions symbol = some p ∧
      p.currentPrice = price ∧
      p.totalValue = (p.quantity : ℚ) * price ∧
      p.profitLoss = p.totalValue - (p.quantity : ℚ) * p.averagePrice ∧
      p.profitLossPercent =
        (if (p.quantity : ℚ) * p.averagePrice > 0 then
          p.profitLoss / ((p.quantity : ℚ) * p.averagePrice) * 100 else 0))

/-- C10: after every successful buy and every successful partial sell, the
stored position's currentPrice equals the caller-supplied execution price of
that trade, and totalValue, profitLoss and profitLossPercent are recomputed
from that price; the stored record keeps these values for subsequent reads
until the next refresh. -/
theorem trade_execution_price_spec (s : MemState) (symbol : String)
    (quantity : ℕ) (price : ℚ) (ts : ℤ) :
    TradePriceOutcome s symbol quantity price ts := by
  constructor
  · intro hcash
    have hng : ¬ ((quantity : ℚ) * price > s.cash) := not_lt.mpr hcash
    cases hlook : getPosition s.positions symbol with
    | none =>
        refine ⟨mkPosition symbol quantity price price, ?_, rfl, rfl, rfl, rfl⟩
        simp only [executeBuy, hng, hlook, updatePosition]
        simpa using getPosition_setPosition_self s.positions
          (mkPosition symbol quantity price price)
    | some old =>
        refine ⟨mkPosition symbol (old.quantity + quantity)
          (((old.quantity : ℚ) * old.averagePrice + (quantity : ℚ) * price)
            / ((old.quantity + quantity : ℕ) : ℚ)) price, ?_, rfl, rfl, rfl, rfl⟩
        simp only [executeBuy, hng, hlook, updatePosition]
        simpa using getPosition_setPosition_self s.positions
          (mkPosition symbol (old.quantity + quantity)
            (((old.quantity : ℚ) * old.averagePrice + (quantity : ℚ) * price)
              / ((old.quantity + quantity : ℕ) : ℚ)) price)
  · intro old hlook hlt
    have hng : ¬ (old.quantity < quantity) := by omega
    have hz : ¬ (old.quantity - quantity = 0) := by omega
    refine ⟨mkPosition symbol (old.quantity - quantity) old.averagePrice price,
      ?_, rfl, rfl, rfl, rfl⟩
    simp only [executeSell, hlook, hng, hz, updatePosition]
    simpa [hz] using getPosition_setPosition_self s.positions
      (mkPosition symbol (old.quantity - quantity) old.averagePrice price)

/-- C10 witness: buying 10 AAPL at 150 from a fresh account stores
currentPrice 150 on the position. -/
theorem trade_execution_price_spec_witness :
    ∃ p, getPosition (executeBuy sampleState "AAPL" 10 150 0).1.positions "AAPL" = some p ∧
      p.currentPrice = 150 ∧
      p.totalValue = (p.quantity : ℚ) * 150 ∧
      p.profitLoss = p.totalValue - (p.quantity : ℚ) * p.averagePrice ∧
      p.profitLossPercent =
        (if (p.quantity : ℚ) * p.averagePrice > 0 then
          p.profitLoss / ((p.quantity : ℚ) * p.averagePrice) * 100 else 0) :=
  (trade_execution_price_spec sampleState "AAPL" 10 150 0).1 (by norm_num [sampleState])

/-- Generalized induction for C9: starting from a held position of Q shares
at average cost C / Q, a run of admissible buys ends with Q plus the bought
shares at average (C plus the spent cost) over the total shares. -/
theorem runBuys_aux (symbol : String) (buys : List (ℕ × ℚ)) :
    ∀ (s : MemState) (Q : ℕ) (C : ℚ) (p0 : Position),
      0 < Q →
      (∀ b ∈ buys, 0 < b.1 ∧ 0 < b.2) →
      (buys.map (fun b => (b.1 : ℚ) * b.2)).sum ≤ s.cash →
      getPosition s.positions symbol = some p0 →
      p0.quantity = Q → p0.averagePrice = C / (Q : ℚ) →
      ∃ p, getPosition (runBuys s symbol buys).positions symbol = some p ∧
        p.quantity = Q + (buys.map Prod.fst).sum ∧
        p.averagePrice = (C + (buys.map (fun b => (b.1 : ℚ) * b.2)).sum)
          / ((Q : ℚ) + ((buys.map Prod.fst).sum : ℚ)) := by
  induction buys with
  | nil =>
      intro s Q C p0 hQ _ _ hlook hq ha
      refine ⟨p0, hlook, by simpa using hq, ?_⟩
      simpa using ha
  | cons b rest ih =>
      intro s Q C p0 hQ hpos hcash hlook hq ha
      obtain ⟨q, pr⟩ := b
      have hqpos : 0 < q := (hpos (q, pr) (by simp)).1
      have hppos : 0 < pr := (hpos (q, pr) (by simp)).2
      have hrest_nonneg : 0 ≤ (rest.map (fun b => (b.1 : ℚ) * b.2)).sum := by
        apply List.sum_nonneg
        intro x hx
        obtain ⟨b', hb', rfl⟩ := List.mem_map.mp hx
        exact mul_nonneg (Nat.cast_nonneg b'.1) (le_of_lt (hpos b' (by simp [hb'])).2)
      have hstep : (q : ℚ) * pr ≤ s.cash := by
        have := hcash
        simp only [List.map_cons, List.sum_cons] at this
        linarith
      have hng : ¬ ((q : ℚ) * pr > s.cash) := not_lt.mpr hstep
      -- the state after the head buy
      have hrun : runBuys s symbol ((q, pr) :: rest) =
          runBuys (executeBuy s symbol q pr 0).1 symbol rest := rfl
      set avg2 : ℚ := ((p0.quantity : ℚ) * p0.averagePrice + (q : ℚ) * pr)
        / ((p0.quantity + q : ℕ) : ℚ) with havg2
      have hbuy : (executeBuy s symbol q pr 0).1.positions =
          setPosition s.positions (mkPosition symbol (p0.quantity + q) avg2 pr) ∧
          (executeBuy s symbol q pr 0).1.cash = s.cash - (q : ℚ) * pr := by
        constructor
        · simp [executeBuy, hng, hlook, updatePosition, havg2]
        · simp [executeBuy, hng, hlook, updatePosition, sub_eq_add_neg]
      have hlook2 : getPosition (executeBuy s symbol q pr 0).1.positions symbol =
          some (mkPosition symbol (p0.quantity + q) avg2 pr) := by
        rw [hbuy.1]
        simpa using getPosition_setPosition_self s.positions
          (mkPosition symbol (p0.quantity + q) avg2 pr)
      have hQq : (0 : ℚ) < (Q : ℚ) := by exact_mod_cast hQ
      have havg2' : avg2 = (C + (q : ℚ) * pr) / ((Q + q : ℕ) : ℚ) := by
        rw [havg2, hq, ha]
        congr 1
        rw [mul_div_assoc']
        rw [mul_comm, mul_div_assoc, div_self (ne_of_gt hQq), mul_one]
      obtain ⟨p, hp, hpq, hpa⟩ := ih (executeBuy s symbol q pr 0).1 (Q + q)
        (C + (q : ℚ) * pr) (mkPosition symbol (p0.quantity + q) avg2 pr)
        (by omega)
        (fun b' hb' => hpos b' (by simp [hb']))
        (by
          rw [hbuy.2]
          simp only [List.map_cons, List.sum_cons] at hcash
          linarith)
        hlook2
        (by simp [mkPosition, hq])
        (by simp only [mkPosition]; exact havg2')
      refine ⟨p, by rwa [hrun], ?_, ?_⟩
      · rw [hpq]
        simp
        omega
      · rw [hpa]
        simp only [List.map_cons, List.sum_cons]
        push_cast
        ring

/-- Outcome asserted by C9: starting with no position in the symbol, any
nonempty admissible run of buys ends with quantity equal to the summed
bought shares and average price equal to the cost-weighted mean of the buy
prices; consequently any reordering (permutation) of the same buys — in
particular swapping two buys — ends with the same quantity and the same
average price. -/
def WeightedMeanOutcome (s : MemState) (symbol : String)
    (buys : List (ℕ × ℚ)) : Prop :=
  (∃ p, getPosition (runBuys s symbol buys).positions symbol = some p ∧
    (p.quantity : ℚ) = ((buys.map Prod.fst).sum : ℚ) ∧
    p.averagePrice = (buys.map (fun b => (b.1 : ℚ) * b.2)).sum
      / (((buys.map Prod.fst).sum : ℕ) : ℚ)) ∧
  (∀ buys2, buys2.Perm buys →
    ∃ p2, getPosition (runBuys s symbol buys2).positions symbol = some p2 ∧
      ∀ p, getPosition (runBuys s symbol buys).positions symbol = some p →
        p2.quantity = p.quantity ∧ p2.averagePrice = p.averagePrice)

/-- Helper for C9: the weighted-mean characterization for one buy list. -/
theorem runBuys_formula (s : MemState) (symbol : String) (buys : List (ℕ × ℚ))
    (hne : buys ≠ [])
    (hpos : ∀ b ∈ buys, 0 < b.1 ∧ 0 < b.2)
    (hcash : (buys.map (fun b => (b.1 : ℚ) * b.2)).sum ≤ s.cash)
    (hno : getPosition s.positions symbol = none) :
    ∃ p, getPosition (runBuys s symbol buys).positions symbol = some p ∧
      p.quantity = (buys.map Prod.fst).sum ∧
      p.averagePrice = (buys.map (fun b => (b.1 : ℚ) * b.2)).sum
        / (((buys.map Prod.fst).sum : ℕ) : ℚ) := by
  obtain ⟨⟨q, pr⟩, rest, rfl⟩ : ∃ b rest, buys = b :: rest := by
    cases buys with
    | nil => exact absurd rfl hne
    | cons b rest => exact ⟨b, rest, rfl⟩
  have hqpos : 0 < q := (hpos (q, pr) (by simp)).1
  have hppos : 0 < pr := (hpos (q, pr) (by simp)).2
  have hrest_nonneg : 0 ≤ (rest.map (fun b => (b.1 : ℚ) * b.2)).sum := by
    apply List.sum_nonneg
    intro x hx
    obtain ⟨b', hb', rfl⟩ := List.mem_map.mp hx
    exact mul_nonneg (Nat.cast_nonneg b'.1) (le_of_lt (hpos b' (by simp [hb'])).2)
  have hstep : (q : ℚ) * pr ≤ s.cash := by
    simp only [List.map_cons, List.sum_cons] at hcash
    linarith
  have hng : ¬ ((q : ℚ) * pr > s.cash) := not_lt.mpr hstep
  have hbuy : (executeBuy s symbol q pr 0).1.positions =
      setPosition s.positions (mkPosition symbol q pr pr) ∧
      (executeBuy s symbol q pr 0).1.cash = s.cash - (q : ℚ) * pr := by
    constructor
    · simp [executeBuy, hng, hno, updatePosition]
    · simp [executeBuy, hng, hno, updatePosition, sub_eq_add_neg]
  have hlook1 : getPosition (executeBuy s symbol q pr 0).1.positions symbol =
      some (mkPosition symbol q pr pr) := by
    rw [hbuy.1]
    simpa using getPosition_setPosition_self s.positions (mkPosition symbol q pr pr)
  have hQq : (0 : ℚ) < (q : ℚ) := by exact_mod_cast hqpos
  obtain ⟨p, hp, hpq, hpa⟩ := runBuys_aux symbol rest (executeBuy s symbol q pr 0).1
    q ((q : ℚ) * pr) (mkPosition symbol q pr pr)
    hqpos
    (fun b' hb' => hpos b' (by simp [hb']))
    (by
      rw [hbuy.2]
      simp only [List.map_cons, List.sum_cons] at hcash
      linarith)
    hlook1
    (by simp [mkPosition])
    (by
      simp only [mkPosition]
      rw [mul_comm, mul_div_assoc, div_self (ne_of_gt hQq), mul_one])
  refine ⟨p, hp, ?_, ?_⟩
  · rw [hpq]; simp
  · rw [hpa]
    simp only [List.map_cons, List.sum_cons]
    push_cast
    ring_nf

/-- C9: with no prior position in the symbol, the average price after any
nonempty admissible sequence of buys equals the cost-weighted mean of the
buy prices with quantity the total bought, and both are invariant under
reordering the buys — in particular under swapping a pair of buys. -/
theorem buys_weightedMean (s : MemState) (symbol : String) (buys : List (ℕ × ℚ))
    (hne : buys ≠ [])
    (hpos : ∀ b ∈ buys, 0 < b.1 ∧ 0 < b.2)
    (hcash : (buys.map (fun b => (b.1 : ℚ) * b.2)).sum ≤ s.cash)
    (hno : getPosition s.positions symbol = none) :
    WeightedMeanOutcome s symbol buys := by
  obtain ⟨p, hp, hpq, hpa⟩ := runBuys_formula s symbol buys hne hpos hcash hno
  constructor
  · exact ⟨p, hp, by rw [hpq], hpa⟩
  · intro buys2 hperm
    have hsum_fst : (buys2.map Prod.fst).sum = (buys.map Prod.fst).sum :=
      ((hperm.map Prod.fst).sum_eq)
    have hsum_cost : (buys2.map (fun b => (b.1 : ℚ) * b.2)).sum =
        (buys.map (fun b => (b.1 : ℚ) * b.2)).sum :=
      ((hperm.map (fun b => (b.1 : ℚ) * b.2)).sum_eq)
    obtain ⟨p2, hp2, hpq2, hpa2⟩ := runBuys_formula s symbol buys2
      (by
        intro h
        subst h
        exact hne hperm.symm.eq_nil)
      (fun b hb => hpos b (hperm.mem_iff.mp hb))
      (by rw [hsum_cost]; exact hcash)
      hno
    refine ⟨p2, hp2, ?_⟩
    intro p' hp'
    rw [hp] at hp'
    cases hp'
    constructor
    · rw [hpq2, hsum_fst, hpq]
    · rw [hpa2, hsum_fst, hsum_cost, hpa]

/-- C9 witness: buying 5 at 100 then 5 at 110 from a fresh account; the
outcome includes every reordering of the two buys. -/
theorem buys_weightedMean_witness :
    WeightedMeanOutcome sampleState "AAPL" [(5, 100), (5, 110)] := by
  refine buys_weightedMean sampleState "AAPL" [(5, 100), (5, 110)] (by simp) ?_
    (by norm_num [sampleState]) rfl
  intro b hb
  simp only [List.mem_cons, List.not_mem_nil, or_false] at hb
  rcases hb with rfl | rfl
  · exact ⟨by norm_num, by norm_num⟩
  · exact ⟨by norm_num, by norm_num⟩

/-- History state reached from the constructor at t = 0 by a portfolio read
at t = 59000: the read coalesces into the constructor point, leaving a
single point stamped 59000 while the coalescing reference stays at 0. -/
def staleCoalesceState : MemState := recordPortfolioValue (initState 0) 59000 99000

/-- C7 counterexample: at t = 61000 the single history point is only
2000 ms old — less than the 60 s coalescing interval — yet the code appends
a second point instead of overwriting it, because coalescing is keyed to the
time of the last append (lastHistoryRecord, still 0), not to the most recent
point's timestamp. -/
theorem recordPortfolioValue_counterexample :
    (staleCoalesceState.portfolioHistory.map HistoryPoint.timestamp = [59000] ∧
      staleCoalesceState.portfolioHistory.length = 1 ∧
      (61000 : ℤ) - 59000 < 60000) ∧
    (recordPortfolioValue staleCoalesceState 61000 98000).portfolioHistory.length = 2 := by
  refine ⟨⟨?_, ?_, by norm_num⟩, ?_⟩ <;>
    norm_num [staleCoalesceState, initState, recordPortfolioValue, takeLast,
      STARTING_CASH]

/-- Outcome asserted by the amended C7: every write ends with at most 100
points, the most recent point is the one just written, a write within
60 s of the last append (with nonempty history) overwrites the most recent
point in place and keeps the coalescing reference, and otherwise the point
is appended (trimmed to the 100 most recent) and the coalescing reference
moves to now. -/
def RecordOutcome (s : MemState) (now : ℤ) (value : ℚ) : Prop :=
  (recordPortfolioValue s now value).portfolioHistory.length ≤ 100 ∧
  (recordPortfolioValue s now value).portfolioHistory.getLast? =
    some ⟨now, value⟩ ∧
  (now - s.lastHistoryRecord < 60000 ∧ s.portfolioHistory ≠ [] →
    (recordPortfolioValue s now value).portfolioHistory =
      s.portfolioHistory.dropLast ++ [⟨now, value⟩] ∧
    (recordPortfolioValue s now value).lastHistoryRecord = s.lastHistoryRecord) ∧
  (60000 ≤ now - s.lastHistoryRecord ∨ s.portfolioHistory = [] →
    (recordPortfolioValue s now value).portfolioHistory =
      takeLast 100 (s.portfolioHistory ++ [⟨now, value⟩]) ∧
    (recordPortfolioValue s now value).lastHistoryRecord = now)

/-- Outcome asserted by the amended C7 for the database backend: every call
appends a new row unconditionally — the result is always the write appended
and then trimmed to the 100 most recent rows, with no timestamp condition
anywhere, so no write ever coalesces into an earlier point — the newest row
is the one just written, and the row count grows by one until the 100-row
cap. -/
def DbRecordOutcome (rows : List HistoryPoint) (now : ℤ) (value : ℚ) : Prop :=
  dbRecordPortfolioValue rows now value = takeLast 100 (rows ++ [⟨now, value⟩]) ∧
  (dbRecordPortfolioValue rows now value).getLast? = some ⟨now, value⟩ ∧
  (dbRecordPortfolioValue rows now value).length = min (rows.length + 1) 100

/-- C7 as amended: in the in-memory backend, recordPortfolioValue coalesces
a write into the most recent point exactly when less than 60 seconds have
elapsed since the last appended point (lastHistoryRecord — not the most
recent point's own timestamp, which is refreshed by an overwrite) and the
history is nonempty, otherwise it appends; in the database backend every
call appends a new row with no coalescing at all; and in both backends
after every write at most the 100 most recent points remain. -/
theorem recordPortfolioValue_spec (s : MemState) (rows : List HistoryPoint)
    (now : ℤ) (value : ℚ) (hlen : s.portfolioHistory.length ≤ 100) :
    RecordOutcome s now value ∧ DbRecordOutcome rows now value := by
  refine ⟨?_, ?_⟩
  case refine_2 =>
    have h1 : dbRecordPortfolioValue rows now value =
        takeLast 100 (rows ++ [⟨now, value⟩]) := by
      by_cases hcap : 100 < (rows ++ [(⟨now, value⟩ : HistoryPoint)]).length
      · simp only [dbRecordPortfolioValue, if_pos hcap]
      · simp only [dbRecordPortfolioValue, if_neg hcap]
        show _ = (rows ++ [(⟨now, value⟩ : HistoryPoint)]).drop _
        rw [Nat.sub_eq_zero_of_le (by omega : (rows ++
          [(⟨now, value⟩ : HistoryPoint)]).length ≤ 100)]
        rw [List.drop_zero]
    refine ⟨h1, ?_, ?_⟩
    · rw [h1]
      show ((rows ++ [(⟨now, value⟩ : HistoryPoint)]).drop
        ((rows ++ [(⟨now, value⟩ : HistoryPoint)]).length - 100)).getLast?
        = some ⟨now, value⟩
      rw [List.drop_append_of_le_length
        (by simp only [List.length_append, List.length_singleton]; omega)]
      simp
    · rw [h1]
      show ((rows ++ [(⟨now, value⟩ : HistoryPoint)]).drop
        ((rows ++ [(⟨now, value⟩ : HistoryPoint)]).length - 100)).length = _
      rw [List.length_drop]
      simp only [List.length_append, List.length_singleton]
      omega
  by_cases hc : now - s.lastHistoryRecord < 60000 ∧ 0 < s.portfolioHistory.length
  · -- coalescing branch: the most recent point is overwritten in place
    have hne : s.portfolioHistory ≠ [] := by
      intro h
      rw [h] at hc
      exact absurd hc.2 (by simp)
    have hlen1 : (s.portfolioHistory.dropLast ++ [(⟨now, value⟩ : HistoryPoint)]).length
        = s.portfolioHistory.length := by
      simp [List.length_dropLast]
      omega
    have hcap : ¬ (100 <
        (s.portfolioHistory.dropLast ++ [(⟨now, value⟩ : HistoryPoint)]).length) := by
      rw [hlen1]; omega
    have hres : recordPortfolioValue s now value =
        { s with portfolioHistory :=
            s.portfolioHistory.dropLast ++ [⟨now, value⟩] } := by
      simp only [recordPortfolioValue, if_pos hc]
      rw [if_neg hcap]
    refine ⟨?_, ?_, fun _ => ⟨by rw [hres], by rw [hres]⟩, ?_⟩
    · rw [hres]
      show (s.portfolioHistory.dropLast ++ [(⟨now, value⟩ : HistoryPoint)]).length ≤ 100
      omega
    · rw [hres]
      simp
    · intro hfar
      rcases hfar with hfar | hfar
      · omega
      · exact absurd hfar hne
  · -- append branch
    have hcase : recordPortfolioValue s now value =
        (if 100 < (s.portfolioHistory ++ [(⟨now, value⟩ : HistoryPoint)]).length then
          { s with
              lastHistoryRecord := now
              portfolioHistory := takeLast 100 (s.portfolioHistory ++ [⟨now, value⟩]) }
        else
          { s with
              lastHistoryRecord := now
              portfolioHistory := s.portfolioHistory ++ [⟨now, value⟩] }) := by
      simp only [recordPortfolioValue, if_neg hc]
    have hgoal_hist : (recordPortfolioValue s now value).portfolioHistory =
        takeLast 100 (s.portfolioHistory ++ [⟨now, value⟩]) ∧
        (recordPortfolioValue s now value).lastHistoryRecord = now := by
      rw [hcase]
      by_cases hcap : 100 < (s.portfolioHistory ++ [(⟨now, value⟩ : HistoryPoint)]).length
      · rw [if_pos hcap]
        exact ⟨rfl, rfl⟩
      · rw [if_neg hcap]
        refine ⟨?_, rfl⟩
        show _ = (s.portfolioHistory ++ [(⟨now, value⟩ : HistoryPoint)]).drop _
        rw [Nat.sub_eq_zero_of_le (by omega : (s.portfolioHistory ++
          [(⟨now, value⟩ : HistoryPoint)]).length ≤ 100)]
        rw [List.drop_zero]
    refine ⟨?_, ?_, ?_, fun _ => hgoal_hist⟩
    · rw [hgoal_hist.1]
      show ((s.portfolioHistory ++ [(⟨now, value⟩ : HistoryPoint)]).drop _).length ≤ 100
      rw [List.length_drop]
      omega
    · rw [hgoal_hist.1]
      show ((s.portfolioHistory ++ [(⟨now, value⟩ : HistoryPoint)]).drop
        ((s.portfolioHistory ++ [(⟨now, value⟩ : HistoryPoint)]).length - 100)).getLast?
        = some ⟨now, value⟩
      rw [List.drop_append_of_le_length
        (by simp only [List.length_append, List.length_singleton]; omega)]
      simp
    · intro hnear
      exact absurd ⟨hnear.1, by simpa [List.length_pos] using hnear.2⟩ hc

/-- C7 witness for the amended claim: a write at t = 70000 onto the
constructor history (one point, reference at 0) appends a second point in
the in-memory backend, and a write onto a one-row database history inserts
a second row. -/
theorem recordPortfolioValue_spec_witness :
    RecordOutcome (initState 0) 70000 98000 ∧
    DbRecordOutcome [⟨0, 100000⟩] 70000 98000 :=
  recordPortfolioValue_spec (initState 0) [⟨0, 100000⟩] 70000 98000
    (by norm_num [initState, recordPortfolioValue, takeLast, STARTING_CASH])

/-- Storing a position replaces the unique entry carrying its symbol. -/
theorem setPosition_replace (l1 l2 : List Position) (q p : Position)
    (hq : q.symbol = p.symbol)
    (h1 : ∀ r ∈ l1, r.symbol ≠ p.symbol) :
    setPosition (l1 ++ q :: l2) p = l1 ++ p :: l2 := by
  induction l1 with
  | nil => simp [setPosition, hq]
  | cons a rest ih =>
      have ha : a.symbol ≠ p.symbol := h1 a (by simp)
      simp only [List.cons_append, setPosition, if_neg ha, List.append_eq]
      rw [ih (fun r hr => h1 r (by simp [hr]))]

/-- A refresh never changes which symbol a position is stored under. -/
theorem refreshQuote_symbol (quotes : String → Option ℚ) (p : Position) :
    (refreshQuote quotes p).symbol = p.symbol := by
  unfold refreshQuote
  cases quotes p.symbol <;> rfl

/-- Invariant of the /api/positions loop: iterating the snapshot suffix over
a store whose prefix is already refreshed refreshes the whole store and
collects the refreshed suffix. -/
theorem refreshPositions_go (quotes : String → Option ℚ) :
    ∀ (suf pre acc : List Position) (s : MemState),
      s.positions = pre.map (refreshQuote quotes) ++ suf →
      ((pre ++ suf).map Position.symbol).Nodup →
      suf.foldl (refreshStep quotes) (s, acc) =
        ({ s with positions := (pre ++ suf).map (refreshQuote quotes) },
          acc ++ suf.map (refreshQuote quotes)) := by
  intro suf
  induction suf with
  | nil =>
      intro pre acc s hpos _
      rw [List.append_nil] at hpos
      simp only [List.foldl_nil, List.append_nil, List.map_nil]
      rw [← hpos]
  | cons p rest ih =>
      intro pre acc s hpos hnd
      have hnd' : (((pre ++ [p]) ++ rest).map Position.symbol).Nodup := by
        simpa [List.append_assoc] using hnd
      have hp_not_pre : ∀ r ∈ pre, r.symbol ≠ p.symbol := by
        intro r hr heq
        have : ¬ ((pre ++ p :: rest).map Position.symbol).Nodup := by
          simp only [List.map_append, List.map_cons]
          intro hcontra
          have hdisj := (List.nodup_append.mp hcontra).2.2
          exact hdisj (a := p.symbol) (by
            rw [← heq]
            exact List.mem_map_of_mem Position.symbol hr) (by simp)
        exact this hnd
      cases hq : quotes p.symbol with
      | none =>
          have hfp : refreshQuote quotes p = p := by simp [refreshQuote, hq]
          have hstep : refreshStep quotes (s, acc) p = (s, acc ++ [p]) := by
            simp [refreshStep, hq]
          have hres := ih (pre ++ [p]) (acc ++ [p]) s
            (by rw [hpos]; simp [hfp])
            hnd'
          calc (p :: rest).foldl (refreshStep quotes) (s, acc)
              = rest.foldl (refreshStep quotes) (refreshStep quotes (s, acc) p) := rfl
            _ = rest.foldl (refreshStep quotes) (s, acc ++ [p]) := by rw [hstep]
            _ = ({ s with positions := ((pre ++ [p]) ++ rest).map (refreshQuote quotes) },
                  (acc ++ [p]) ++ rest.map (refreshQuote quotes)) := hres
            _ = ({ s with positions := (pre ++ p :: rest).map (refreshQuote quotes) },
                  acc ++ (p :: rest).map (refreshQuote quotes)) := by
                  simp [hfp, List.append_assoc]
      | some price =>
          set pnew := mkPosition p.symbol p.quantity p.averagePrice price with hpnew
          have hfp : refreshQuote quotes p = pnew := by simp [refreshQuote, hq, hpnew]
          have hs1 : setPosition s.positions pnew =
              pre.map (refreshQuote quotes) ++ pnew :: rest := by
            rw [hpos]
            exact setPosition_replace (pre.map (refreshQuote quotes)) rest p pnew rfl
              (by
                intro r hr
                obtain ⟨r0, hr0, rfl⟩ := List.mem_map.mp hr
                rw [refreshQuote_symbol]
                exact fun hcon => hp_not_pre r0 hr0 hcon)
          have hstep : refreshStep quotes (s, acc) p =
              ({ s with positions := pre.map (refreshQuote quotes) ++ pnew :: rest },
                acc ++ [pnew]) := by
            simp only [refreshStep, hq, updatePosition]
            rw [hs1]
          have hres := ih (pre ++ [p]) (acc ++ [pnew])
            { s with positions := pre.map (refreshQuote quotes) ++ pnew :: rest }
            (by simp [hfp])
            hnd'
          calc (p :: rest).foldl (refreshStep quotes) (s, acc)
              = rest.foldl (refreshStep quotes) (refreshStep quotes (s, acc) p) := rfl
            _ = rest.foldl (refreshStep quotes)
                  ({ s with positions := pre.map (refreshQuote quotes) ++ pnew :: rest },
                    acc ++ [pnew]) := by rw [hstep]
            _ = ({ s with positions := ((pre ++ [p]) ++ rest).map (refreshQuote quotes) },
                  (acc ++ [pnew]) ++ rest.map (refreshQuote quotes)) := hres
            _ = ({ s with positions := (pre ++ p :: rest).map (refreshQuote quotes) },
                  acc ++ (p :: rest).map (refreshQuote quotes)) := by
                  simp [hfp, List.append_assoc]

/-- The /api/positions handler maps refreshQuote over the store and returns
the same refreshed list. -/
theorem refreshPositions_eq (s : MemState) (quotes : String → Option ℚ)
    (hnd : (s.positions.map Position.symbol).Nodup) :
    refreshPositions s quotes =
      ({ s with positions := s.positions.map (refreshQuote quotes) },
        s.positions.map (refreshQuote quotes)) := by
  have h := refreshPositions_go quotes s.positions [] [] s (by simp) (by simpa using hnd)
  simpa [refreshPositions] using h

/-- Outcome asserted by the amended C6 for the in-memory backend: the
handler returns the stored positions refreshed through the quote lookup and
persists exactly that list, a quoted position being rebuilt at the quoted
price (with totalValue, profitLoss and the zero-cost-basis percent guard
recomputed) and an unquoted position passing through with its last-known
current price. -/
def RefreshOutcome (s : MemState) (quotes : String → Option ℚ) : Prop :=
  (refreshPositions s quotes).2 = s.positions.map (refreshQuote quotes) ∧
  (refreshPositions s quotes).1.positions = s.positions.map (refreshQuote quotes) ∧
  (∀ p ∈ s.positions, ∀ price, quotes p.symbol = some price →
    refreshQuote quotes p = mkPosition p.symbol p.quantity p.averagePrice price ∧
    (refreshQuote quotes p).currentPrice = price ∧
    (refreshQuote quotes p).totalValue = (p.quantity : ℚ) * price ∧
    (refreshQuote quotes p).profitLoss =
      (p.quantity : ℚ) * price - (p.quantity : ℚ) * p.averagePrice ∧
    ((p.quantity : ℚ) * p.averagePrice = 0 →
      (refreshQuote quotes p).profitLossPercent = 0)) ∧
  (∀ p ∈ s.positions, quotes p.symbol = none → refreshQuote quotes p = p)

/-- C6 as amended: in the in-memory backend, refreshPositions recomputes a
quoted position's currentPrice, totalValue, profitLoss and (zero-guarded)
profitLossPercent from the quoted price, keeps an unquoted position at its
last-known current price, and persists the refreshed list so that a
subsequent read returns it; the database backend is covered separately by
the counterexample, since it never persists currentPrice. -/
theorem refreshPositions_spec (s : MemState) (quotes : String → Option ℚ)
    (hnd : (s.positions.map Position.symbol).Nodup) :
    RefreshOutcome s quotes := by
  refine ⟨?_, ?_, ?_, ?_⟩
  · rw [refreshPositions_eq s quotes hnd]
  · rw [refreshPositions_eq s quotes hnd]
  · intro p _ price hq
    have hfp : refreshQuote quotes p = mkPosition p.symbol p.quantity p.averagePrice price := by
      simp [refreshQuote, hq]
    refine ⟨hfp, ?_, ?_, ?_, ?_⟩ <;> rw [hfp]
    · rfl
    · rfl
    · rfl
    · intro hcb
      show (if (p.quantity : ℚ) * p.averagePrice > 0 then _ else 0) = 0
      rw [if_neg (by rw [hcb]; exact lt_irrefl 0)]
  · intro p _ hq
    simp [refreshQuote, hq]

/-- Concrete store for the C6 witness: AAPL held at average 150, TSLA held
at average 200, both last marked at their averages. -/
def refreshSampleState : MemState :=
  ⟨97000, [mkPosition "AAPL" 10 150 150, mkPosition "TSLA" 5 200 200],
    [], [], [], [], 0⟩

/-- Quote lookup for the C6 witness: AAPL quotes 160, TSLA is unavailable. -/
def refreshSampleQuotes : String → Option ℚ :=
  fun symbol => if symbol = "AAPL" then some 160 else none

/-- C6 witness: refreshing the two-position store with one quote available
and one missing. -/
theorem refreshPositions_spec_witness :
    RefreshOutcome refreshSampleState refreshSampleQuotes :=
  refreshPositions_spec refreshSampleState refreshSampleQuotes
    (by simp [refreshSampleState, mkPosition])

/-- C6 counterexample, database backend: a refresh that writes currentPrice
200 for a row held at average 150 returns 200 to its caller, but the next
read of positions reports currentPrice 150 — the stored averagePrice — so
the refreshed price is not returned by subsequent reads. -/
theorem refresh_db_counterexample :
    (dbUpdatePosition [⟨"AAPL", 10, 150⟩] "AAPL" 10 150 200).2.currentPrice = 200 ∧
    (dbGetPositions (dbUpdatePosition [⟨"AAPL", 10, 150⟩] "AAPL" 10 150 200).1).map
      Position.currentPrice = [150] ∧
    (150 : ℚ) ≠ 200 := by
  refine ⟨rfl, ?_, by norm_num⟩
  norm_num [dbGetPositions, dbUpdatePosition, mkPosition]

end NomadTrading
